import Mathlib

/-!
# Verification of the Vibe-Buddy core subsystems

A shallow embedding of the core of the Vibe-Buddy prompt-authoring workbench:
the unified file-tree model (`services/fileSystem.ts`, `services/githubService.ts`),
the ignore/filtering engine (`components/ExportModal.tsx`, `constants.ts`),
the context bundling pipeline (`components/ExportModal.tsx`, `scanProject`),
and the agent tool-calling orchestration loop (`store.tsx`, `sendMessage` /
`executeTool`), together with theorems settling the specification claims.

JavaScript strings are modelled through their character lists (`String.data`);
all string primitives the source uses (`split`, `trim`, `startsWith`,
`endsWith`, `includes`, `slice`) are implemented below over `List Char`,
which keeps every definition kernel-executable.  The sources only ever
manipulate ASCII project paths and contents in the scenarios of interest, so
the UTF-16 `length` of JavaScript coincides with the character count used here.
-/

namespace VibeBuddy

/-! ## JavaScript string primitives -/

/-- `sub.isPrefixOf`-based substring containment: JS `String.prototype.includes`. -/
def charsContains (sub : List Char) : List Char → Bool
  | [] => sub.isEmpty
  | c :: rest => sub.isPrefixOf (c :: rest) || charsContains sub rest

/-- JS `String.prototype.split(sep)` over character lists (single-char separator). -/
def splitCharList (sep : Char) : List Char → List (List Char)
  | [] => [[]]
  | c :: rest =>
    let r := splitCharList sep rest
    if c = sep then [] :: r
    else
      match r with
      | [] => [[c]]
      | h :: t => (c :: h) :: t

/-- Whitespace for JS `String.prototype.trim` (the ASCII cases). -/
def isJsWhitespace (c : Char) : Bool :=
  c = ' ' || c = '\t' || c = '\n' || c = '\r'

/-- JS `String.prototype.trim` over character lists. -/
def trimChars (l : List Char) : List Char :=
  ((l.dropWhile isJsWhitespace).reverse.dropWhile isJsWhitespace).reverse

/-- JS `a.startsWith(pre)`. -/
def jsStartsWith (s pre : String) : Bool := pre.data.isPrefixOf s.data

/-- JS `a.endsWith(suf)`. -/
def jsEndsWith (s suf : String) : Bool := suf.data.isSuffixOf s.data

/-- JS `a.includes(sub)`. -/
def jsIncludes (s sub : String) : Bool := charsContains sub.data s.data

/-- JS `a.trim()`. -/
def jsTrim (s : String) : String := ⟨trimChars s.data⟩

/-- JS `a.slice(n)` (drop the first `n` UTF-16 units; ASCII here). -/
def jsDrop (s : String) (n : Nat) : String := ⟨s.data.drop n⟩

/-- JS `a.slice(0, n)`. -/
def jsTake (s : String) (n : Nat) : String := ⟨s.data.take n⟩

/-- JS `a.slice(0, -1)`. -/
def jsDropRight (s : String) : String := ⟨s.data.dropLast⟩

/-- JS `a.length` (UTF-16 units; the sources only handle ASCII paths). -/
def jsLength (s : String) : Nat := s.data.length

/-- JS `s.split('/')`. -/
def splitSlash (s : String) : List String := (splitCharList '/' s.data).map String.mk

/-- JS `s.split('\n')`. -/
def splitNewline (s : String) : List String := (splitCharList '\n' s.data).map String.mk

/-- JS `s.toLowerCase()` restricted to ASCII, as used by the locale comparison model. -/
def lowerChars (l : List Char) : List Char := l.map Char.toLower

/-! ## Data model: `FileNode` (types.ts)

The source `FileNode` also carries `id` (always equal to `path` for every
constructor in the sources), a native `handle`, a legacy `file` blob,
`contentUrl` and `accessToken`.  Content access through those references is
I/O; it is modelled uniformly by a read oracle `String → Option String` keyed
by `path` (sound because `id = path` is unique in every constructed tree), so
the reference fields are not represented. -/

inductive NodeKind where
  | file
  | directory
deriving DecidableEq, Repr

inductive FileNode where
  | mk (name : String) (kind : NodeKind) (path : String) (children : Option (List FileNode))

def FileNode.name : FileNode → String
  | .mk n _ _ _ => n

def FileNode.kind : FileNode → NodeKind
  | .mk _ k _ _ => k

def FileNode.path : FileNode → String
  | .mk _ _ p _ => p

def FileNode.children : FileNode → Option (List FileNode)
  | .mk _ _ _ c => c

/-- `node.children` with JS `undefined` treated as the empty collection. -/
def FileNode.childrenD (n : FileNode) : List FileNode := n.children.getD []

def FileNode.setChildren : FileNode → List FileNode → FileNode
  | .mk n k p _, l => .mk n k p (some l)

/-! ## IgnoreEngine -/

/-- Modelled from the spec: `isSystemIgnored` lives in `constants.ts`, which is
not among the provided sources (only its unit test is).  Spec §4.1: a pure
membership test against a fixed table of directory/file names and extensions,
plus the rule that any name starting with `.` other than the literal `.` is
ignored; the unit test additionally shows the input is trimmed first.  The
table holds exactly the entries the spec and the unit test document
(`node_modules`, and the `.png`/`.svg`/`.pdf` binary extensions). -/
def isSystemIgnored (name : String) : Bool :=
  let n := jsTrim name
  (jsStartsWith n "." && n ≠ ".") ||
  n ∈ ["node_modules"] ||
  [".png", ".svg", ".pdf"].any (fun ext => jsEndsWith n ext)

/-- `parseGitIgnore` (ExportModal.tsx): split on line breaks, trim, drop blank
and `#`-comment lines, strip a single leading `/`. -/
def parseGitIgnore (content : String) : List String :=
  (((splitNewline content).map jsTrim).filter
      (fun line => line ≠ "" && !jsStartsWith line "#")).map
    (fun pattern => if jsStartsWith pattern "/" then jsDrop pattern 1 else pattern)

/-- `isGitIgnored` (ExportModal.tsx): suffix-wildcard (`*...`), directory-anchor
(`.../`) and exact-or-prefix rule matching. -/
def isGitIgnored (filePath : String) (rules : List String) : Bool :=
  rules.any fun rule =>
    if jsStartsWith rule "*" then
      jsEndsWith filePath (jsDrop rule 1)
    else if jsEndsWith rule "/" then
      let dirName := jsDropRight rule
      jsIncludes filePath ("/" ++ dirName ++ "/") ||
        jsStartsWith filePath (dirName ++ "/") || filePath = dirName
    else
      filePath = rule || jsStartsWith filePath (rule ++ "/")

/-! ## Sibling ordering (fileSystem.ts `sortNodes`, githubService.ts `sortNodes`)

The source comparator is
`(a, b) => a.kind === b.kind ? a.name.localeCompare(b.name) : (a.kind === 'directory' ? -1 : 1)`.
`localeCompare` with the default locale is modelled for ASCII strings as the
ICU-style two-level comparison: a primary case-insensitive lexicographic pass,
with the raw code-point comparison as tie-break.  `Array.prototype.sort` is a
stable sort whose result, for a consistent comparator, is sorted with respect
to it; it is modelled by the (stable) `List.insertionSort`. -/

/-- Strict lexicographic order on character lists by code point. -/
def charListLt : List Char → List Char → Bool
  | [], [] => false
  | [], _ :: _ => true
  | _ :: _, [] => false
  | a :: as, b :: bs => a.toNat < b.toNat || (a.toNat = b.toNat && charListLt as bs)

/-- Model of JS `a.localeCompare(b)` (default locale, ASCII): compare
case-insensitively first, then break ties with the case-sensitive order. -/
def localeCompare (a b : String) : Int :=
  if charListLt (lowerChars a.data) (lowerChars b.data) then -1
  else if charListLt (lowerChars b.data) (lowerChars a.data) then 1
  else if charListLt a.data b.data then -1
  else if charListLt b.data a.data then 1
  else 0

/-- The comparator of `sortNodes`. -/
def nodeCmp (a b : FileNode) : Int :=
  if a.kind = b.kind then localeCompare a.name b.name
  else if a.kind = .directory then -1 else 1

/-- `cmp a b ≤ 0`: the ordering the sorted output satisfies. -/
def nodeLeb (a b : FileNode) : Bool := nodeCmp a b ≤ 0

/-- The comparator as a relation. -/
def nodeLe (a b : FileNode) : Prop := nodeLeb a b = true

instance : DecidableRel nodeLe := fun a b => by
  unfold nodeLe
  infer_instance

/-- `sortNodes` (fileSystem.ts / githubService.ts): directories first, then
locale-aware by name.  `Array.prototype.sort` is a stable sort, and for a
consistent comparator a stable sort's output is uniquely determined by the
input, so the stable `List.insertionSort` models it exactly. -/
def sortNodes (nodes : List FileNode) : List FileNode := List.insertionSort nodeLe nodes

/-- The claim's reading of the sibling order: every `Directory` precedes every
`File`, and inside one kind the display names are in (modelled) locale order. -/
def nodeRel (a b : FileNode) : Prop :=
  (a.kind = .directory ∧ b.kind = .file) ∨ (a.kind = b.kind ∧ localeCompare a.name b.name ≤ 0)

/-- A children sequence satisfying the ordering invariant of the claim. -/
def childrenOrdered (l : List FileNode) : Prop := l.Pairwise nodeRel

/-! ## FileTreeModel: the three construction algorithms -/

mutual

/-- All nodes of a tree (the node itself and, recursively, its children). -/
def allNodes : FileNode → List FileNode
  | .mk n k p none => [.mk n k p none]
  | .mk n k p (some l) => .mk n k p (some l) :: allNodesList l

def allNodesList : List FileNode → List FileNode
  | [] => []
  | c :: cs => allNodes c ++ allNodesList cs

end

mutual

/-- `findNodeByPath` (store.tsx): pre-order search for an exact path match. -/
def findNodeByPath : FileNode → String → Option FileNode
  | .mk n k p cs, path =>
    if p = path then some (.mk n k p cs)
    else
      match cs with
      | none => none
      | some l => findInChildren l path

/-- The `for (const child of node.children)` loop: first hit wins. -/
def findInChildren : List FileNode → String → Option FileNode
  | [], _ => none
  | c :: cs, path =>
    match findNodeByPath c path with
    | some found => some found
    | none => findInChildren cs path

end

mutual

/-- `getAllFilePaths`'s inner `traverse` (fileSystem.ts): push the path of every
`file` node, then recurse into children. -/
def getAllFilePathsNode : FileNode → List String
  | .mk _ k p cs =>
    (if k = .file then [p] else []) ++
      match cs with
      | none => []
      | some l => getAllFilePathsList l

def getAllFilePathsList : List FileNode → List String
  | [] => []
  | c :: cs => getAllFilePathsNode c ++ getAllFilePathsList cs

end

/-- `getAllFilePaths` (fileSystem.ts); a `null` argument yields `[]`. -/
def getAllFilePaths : Option FileNode → List String
  | none => []
  | some n => getAllFilePathsNode n

/-! ### Native traversal (fileSystem.ts `openDirectory` / `readDirectory`)

The platform directory handle is modelled as a tree of raw entries in the
platform's enumeration order. -/

inductive RawEntry where
  | file (name : String)
  | dir (name : String) (entries : List RawEntry)

mutual

/-- One step of `readDirectory`'s enumeration loop: skip system-ignored names,
create a node with `id = path = parentPath ++ "/" ++ name`; directories recurse
and their children are sorted once fully populated (files get `children: []`,
as in the source object literal). -/
def buildEntry (currentPath : String) : RawEntry → Option FileNode
  | .file n =>
    if isSystemIgnored n then none
    else some (FileNode.mk n .file (currentPath ++ "/" ++ n) (some []))
  | .dir n es =>
    if isSystemIgnored n then none
    else
      some (FileNode.mk n .directory (currentPath ++ "/" ++ n)
        (some (sortNodes (buildList (currentPath ++ "/" ++ n) es))))

/-- The enumeration loop of `readDirectory` over a directory's entries. -/
def buildList (currentPath : String) : List RawEntry → List FileNode
  | [] => []
  | e :: rest =>
    (match buildEntry currentPath e with
      | some n => [n]
      | none => []) ++ buildList currentPath rest

end

/-- `openDirectory` (fileSystem.ts): root node from the picked handle (its own
name is not filtered), children via `readDirectory`, sorted. -/
def openDirectory (rootName : String) (entries : List RawEntry) : FileNode :=
  FileNode.mk rootName .directory rootName (some (sortNodes (buildList rootName entries)))

/-! ### Index-based reconstruction (flat list and remote)

Both `processFileList` (fileSystem.ts) and `loadGithubRepo`
(githubService.ts) walk each entry's path segments, looking the intermediate
path up in a `path → node` map and creating missing nodes.  Because every
created node is simultaneously registered in the map under its full path and
pushed into the children of the node whose path is the parent path, the map
lookup `map.get(path)` coincides with searching the current node's children
for that path; `insertWalk` uses the latter, purely functional form. -/

/-- In-place mutation of the one child carrying path `p` (paths of siblings are
unique by construction, since creation is guarded by the map lookup). -/
def replaceByPath (l : List FileNode) (p : String) (n' : FileNode) : List FileNode :=
  l.map fun c => if c.path = p then n' else c

/-- The segment walk shared by `processFileList` and `loadGithubRepo`: descend
along `parts`, creating intermediate directory nodes; the leaf gets `leafKind`.
A looked-up node without a `children` array acquires one before a new child is
pushed (`if (!currentNode.children) currentNode.children = []`). -/
def insertWalk (cur : FileNode) (curPath : String) (parts : List String)
    (leafKind : NodeKind) : FileNode :=
  match parts with
  | [] => cur
  | part :: rest =>
    let kind := if rest.isEmpty then leafKind else NodeKind.directory
    let path := curPath ++ "/" ++ part
    match cur.childrenD.find? (fun c => c.path = path) with
    | some child =>
      cur.setChildren (replaceByPath cur.childrenD path (insertWalk child path rest leafKind))
    | none =>
      let newChild :=
        insertWalk
          (FileNode.mk part kind path (if kind = .directory then some [] else none))
          path rest leafKind
      cur.setChildren (cur.childrenD ++ [newChild])

mutual

/-- `sortRecursive` (fileSystem.ts / githubService.ts): the source sorts a
node's children and then recursively sorts each child in place.  Since the
recursion changes no child's `name` or `kind` — the only fields the comparator
reads — sorting commutes with the recursive pass; this definition recurses
first and sorts after, and the theorem `sortNodes_sortRecursiveList` below
proves the two orders produce the same list. -/
def sortRecursive : FileNode → FileNode
  | .mk n k p none => .mk n k p none
  | .mk n k p (some l) => .mk n k p (some (sortNodes (sortRecursiveList l)))

def sortRecursiveList : List FileNode → List FileNode
  | [] => []
  | c :: cs => sortRecursive c :: sortRecursiveList cs

end

/-- `processFileList` (fileSystem.ts): empty selection yields `null`; otherwise
the first path's leading segment names the synthetic root, entries with a
system-ignored segment are skipped whole, the rest are inserted starting from
segment 1 (the root segment), and the tree is sorted recursively at the end.
The associated content blobs do not influence the tree shape and are read
through the path-keyed oracle elsewhere. -/
def processFileList (paths : List String) : Option FileNode :=
  match paths with
  | [] => none
  | p0 :: _ =>
    let rootName := (splitSlash p0).headD ""
    let root0 := FileNode.mk rootName .directory rootName (some [])
    let built := paths.foldl
      (fun root p =>
        let pathParts := splitSlash p
        if pathParts.any (fun part => isSystemIgnored part) then root
        else insertWalk root rootName pathParts.tail .file)
      root0
    some (sortRecursive built)

/-- A manifest entry of the remote tree listing (`type` is `"blob"` or
`"tree"`). -/
structure GithubTreeEntry where
  path : String
  type : String

/-- The tree-building part of `loadGithubRepo` (githubService.ts), after the
default branch and the recursive manifest have been fetched: same index walk
as `processFileList`, but over all segments (the root is the repository), with
the leaf kind taken from the entry type.  The per-file `contentUrl` /
`accessToken` only configure content fetching, which the read oracle models. -/
def loadGithubRepo (repo : String) (entries : List GithubTreeEntry) : FileNode :=
  let root0 := FileNode.mk repo .directory repo (some [])
  let built := entries.foldl
    (fun root e =>
      let parts := splitSlash e.path
      if parts.any (fun part => isSystemIgnored part) then root
      else insertWalk root repo parts (if e.type = "blob" then .file else .directory))
    root0
  sortRecursive built

/-! ## BundlingPipeline (ExportModal.tsx `scanProject`)

The React state setters (`setStatus`, `setProgress`, …) become fields of an
explicit UI-state record threaded through the pure model.  Content access
(`readFileContent`) is the read oracle: `none` models a rejected read.  The
cancellation flag `abortRef.current` is modelled by its value as observed at
the loop-top check of each batch, indexed by batch ordinal. -/

inductive ScanStatus where
  | idle
  | scanning
  | ready
deriving DecidableEq, Repr

structure ScanStats where
  size : Nat
  tokens : Nat
  count : Nat
deriving DecidableEq, Repr

structure ScanUI where
  status : ScanStatus
  progress : Nat
  scannedFiles : Nat
  totalFiles : Nat
  contextContent : String
  stats : ScanStats
  hasBundle : Bool
deriving DecidableEq, Repr

mutual

/-- The candidate-collecting `traverse` closure of `scanProject`: compute the
root-relative path, prune system-ignored names, prune gitignore matches when
enabled and rules are present and the relative path is non-empty, push `file`
nodes, recurse into children. -/
def collectCandidates (rootPath : String) (useGI : Bool) (rules : List String) :
    FileNode → List FileNode
  | .mk n k p cs =>
    let relPath := if jsStartsWith p rootPath then jsDrop p (jsLength rootPath + 1) else p
    if isSystemIgnored n then []
    else if useGI && !rules.isEmpty && !(relPath == "") && isGitIgnored relPath rules then []
    else
      (if k = .file then [FileNode.mk n k p cs] else []) ++
        match cs with
        | none => []
        | some l => collectCandidatesList rootPath useGI rules l

def collectCandidatesList (rootPath : String) (useGI : Bool) (rules : List String) :
    List FileNode → List FileNode
  | [] => []
  | c :: cs =>
    collectCandidates rootPath useGI rules c ++ collectCandidatesList rootPath useGI rules cs

end

/-- One `<file>` record: `  <file path="${path}">\n<![CDATA[\n${content}\n]]>\n  </file>\n`. -/
def fileRecord (path content : String) : String :=
  "  <file path=\"" ++ path ++ "\">\n<![CDATA[\n" ++ content ++ "\n]]>\n  </file>\n"

/-- `'\0' ∈ content` (the binary heuristic). -/
def containsNull (content : String) : Bool := content.data.contains (Char.ofNat 0)

/-- The per-file mapper of a batch: a rejected read, empty content, or content
holding a null byte contributes the empty string; otherwise the delimited
record. -/
def readRecord (readFile : String → Option String) (file : FileNode) : String :=
  match readFile file.path with
  | none => ""
  | some content =>
    if content = "" || containsNull content then "" else fileRecord file.path content

/-- `Math.round((processed / total) * 100)` over exact rationals (for counts in
range the double-precision evaluation agrees; no claim depends on the percent
value). -/
def progressRound (p t : Nat) : Nat := (200 * p + t) / (2 * t)

/-- `candidates.slice(i, i + CHUNK_SIZE)` for `i = 0, 5, 10, …` with
`CHUNK_SIZE = 5`: the batches of the processing loop, in order. -/
def chunks5 : List FileNode → List (List FileNode)
  | [] => []
  | [a] => [[a]]
  | [a, b] => [[a, b]]
  | [a, b, c] => [[a, b, c]]
  | [a, b, c, d] => [[a, b, c, d]]
  | a :: b :: c :: d :: e :: rest => [a, b, c, d, e] :: chunks5 rest

/-- The chunked processing loop of `scanProject`, including finalization: the
abort flag is checked at the top of every iteration (none happens for an empty
candidate list), a batch's records are appended in candidate order
(`Promise.all` keeps order), and counters/progress are updated per batch.  The
approximate token count `Math.round(totalSize * 0.25)` is exact in double
precision for any realizable `totalSize < 2^52`, and `Math.round` rounds
halves toward `+∞`, so it equals `⌊(totalSize + 2) / 4⌋`. -/
def scanLoop (readFile : String → Option String) (abort : Nat → Bool) :
    Nat → List (List FileNode) → Nat → Nat → String → Nat → ScanUI → ScanUI
  | _, [], processed, _total, output, size, ui =>
    { ui with
      contextContent := output ++ "</project>",
      stats := ⟨size, (size + 2) / 4, processed⟩,
      status := .ready,
      hasBundle := true }
  | batchIdx, chunk :: restChunks, processed, total, output, size, ui =>
    if abort batchIdx then
      { ui with status := .idle, progress := 0, scannedFiles := 0 }
    else
      let recs := chunk.map (readRecord readFile)
      let output1 := output ++ String.join recs
      let size1 := size + (recs.map jsLength).sum
      let processed1 := processed + chunk.length
      let ui1 := { ui with
        scannedFiles := min processed1 total,
        progress := progressRound processed1 total }
      scanLoop readFile abort (batchIdx + 1) restChunks processed1 total output1 size1 ui1

/-- Step 1 of `scanProject`: when enabled and the root has a children array,
find the root-level `.gitignore` and parse it; absence or a failed read
degrades to no rules (the `catch` only warns). -/
def scanGitIgnoreRules (root : FileNode) (useGitIgnore : Bool)
    (readFile : String → Option String) : List String :=
  if useGitIgnore then
    match root.children with
    | none => []
    | some l =>
      match l.find? (fun c => c.name == ".gitignore") with
      | some g =>
        match readFile g.path with
        | some content => parseGitIgnore content
        | none => []
      | none => []
  else []

/-- Step 2 of `scanProject`: the flattened candidate list. -/
def scanCandidates (root : FileNode) (useGitIgnore : Bool)
    (readFile : String → Option String) : List FileNode :=
  collectCandidates root.path useGitIgnore (scanGitIgnoreRules root useGitIgnore readFile) root

/-- `scanProject` (ExportModal.tsx): reset the UI state (`status := scanning`,
progress and counters zeroed, content cleared, `totalFiles` set to the
candidate count), then run the batch loop over the candidate chunks starting
from the opening `<project>` wrapper. -/
def scanProject (root : FileNode) (useGitIgnore : Bool) (readFile : String → Option String)
    (abort : Nat → Bool) (ui : ScanUI) : ScanUI :=
  scanLoop readFile abort 0 (chunks5 (scanCandidates root useGitIgnore readFile)) 0
    (scanCandidates root useGitIgnore readFile).length
    ("<project name=\"" ++ root.name ++ "\">\n") 0
    { ui with
      status := ScanStatus.scanning, progress := 0, scannedFiles := 0,
      contextContent := "", hasBundle := false,
      totalFiles := (scanCandidates root useGitIgnore readFile).length }

/-! ## AgentOrchestrator (store.tsx `sendMessage` / `executeTool`)

The streamed model response of one turn is a list of chunks; a whole session
run is a list of streams, one per (continuation) turn, consumed in order.  The
shared `abortStreamRef` flag is modelled by its observed value at the `n`-th
chunk-boundary check of the run (the flag is reset to `false` when
`sendMessage` starts).  Timestamps carry no logic and are dropped.  Session
creation (`startAgent`) is external; runs are modelled from an established
session. -/

structure ToolArgs where
  path : Option String := none
  paths : Option (List String) := none
  text : Option String := none
deriving DecidableEq, Repr

structure FunctionCall where
  name : String
  args : ToolArgs
deriving DecidableEq, Repr

/-- The JS result objects of `executeTool`, one constructor per shape. -/
inductive ToolResult where
  | ok
  | files (fs : List String)
  | content (c : String)
  | count (n : Nat)
  | message (m : String)
  | error (e : String)
deriving DecidableEq, Repr

structure ToolResponse where
  name : String
  response : ToolResult
deriving DecidableEq, Repr

inductive Role where
  | user
  | model
deriving DecidableEq, Repr

structure ChatMessage where
  role : Role
  text : String
  isError : Bool := false
  toolCalls : Option (List FunctionCall) := none
deriving DecidableEq, Repr

inductive Activity where
  | idle
  | thinking
  | tool (toolName : String) (description : String)
deriving DecidableEq, Repr

structure AgentState where
  rootNode : Option FileNode
  selectedPaths : List String
  loadedFiles : List (String × String)
  userInstruction : String
  messages : List ChatMessage
  activity : Activity

/-- `Set.add`: append if absent (a JS `Set` keeps insertion order and holds no
duplicates). -/
def jsSetAdd (s : List String) (p : String) : List String :=
  if p ∈ s then s else s ++ [p]

/-- `Set.delete`: a JS `Set` holds its element at most once, so deleting is
dropping every (i.e. the single) occurrence. -/
def jsSetDelete (s : List String) (p : String) : List String :=
  s.filter (fun q => q ≠ p)

/-- `Map.set` for the `loadedFiles` content cache. -/
def mapSet (m : List (String × String)) (k v : String) : List (String × String) :=
  if m.any (fun kv => kv.1 == k) then m.map (fun kv => if kv.1 == k then (k, v) else kv)
  else m ++ [(k, v)]

/-- `executeTool` (store.tsx): set the activity to the running tool, dispatch on
the tool name (the `try`/`catch` is modelled at each possible rejection site:
a caught exception becomes an `error` result), return to `thinking`.  An
unrecognized name leaves the initial `{status: 'ok'}` result untouched.
`update_instruction` with the declared-required `text` argument missing would
store `undefined`; the claims only invoke tools with their declared arguments,
so that case leaves the instruction unchanged here. -/
def executeTool (readFile : String → Option String) (st : AgentState) (call : FunctionCall) :
    AgentState × ToolResponse :=
  let st0 := { st with activity := Activity.tool call.name ("Running " ++ call.name ++ "...") }
  let dispatched : AgentState × ToolResult :=
    if call.name = "list_files" then
      (st0, ToolResult.files (getAllFilePaths st0.rootNode))
    else if call.name = "read_file" then
      match st0.rootNode with
      | none => (st0, .error "TypeError")
      | some root =>
        match (match call.args.path with
                | some p => findNodeByPath root p
                | none => none) with
        | some node =>
          match readFile node.path with
          | some content =>
            ({ st0 with loadedFiles := mapSet st0.loadedFiles node.path content },
              .content (jsTake content 10000))
          | none => (st0, .error "read failed")
        | none => (st0, .error "File not found")
    else if call.name = "select_files" then
      match call.args.paths with
      | none => (st0, .error "TypeError")
      | some ps =>
        let newSet := ps.foldl jsSetAdd st0.selectedPaths
        ({ st0 with selectedPaths := newSet }, .count newSet.length)
    else if call.name = "deselect_files" then
      match call.args.paths with
      | none => (st0, .error "TypeError")
      | some ps =>
        ({ st0 with selectedPaths := ps.foldl jsSetDelete st0.selectedPaths }, .ok)
    else if call.name = "update_instruction" then
      match call.args.text with
      | some t => ({ st0 with userInstruction := t }, .ok)
      | none => (st0, .ok)
    else if call.name = "suggest_templates" then
      match st0.rootNode with
      | none => (st0, .error "No project loaded")
      | some _ =>
        (st0, .message "Templates generated and added to Library > Suggested tab.")
    else (st0, .ok)
  ({ dispatched.1 with activity := .thinking }, ⟨call.name, dispatched.2⟩)

/-- One streamed chunk: optional text increment and/or function-call requests
(`if (chunk.text)` skips empty strings; an absent and an empty `functionCalls`
array contribute the same nothing). -/
structure Chunk where
  text : Option String := none
  functionCalls : Option (List FunctionCall) := none

def userMsg (text : String) : ChatMessage := { role := .user, text := text }

/-- The placeholder append: reuse a trailing model record, else push an empty
one. -/
def ensurePlaceholder (msgs : List ChatMessage) : List ChatMessage :=
  match msgs.getLast? with
  | some m => if m.role = .model then msgs else msgs ++ [{ role := .model, text := "" }]
  | none => msgs ++ [{ role := .model, text := "" }]

/-- Replace the last message (the in-progress model-turn record). -/
def setLastMsg : List ChatMessage → (ChatMessage → ChatMessage) → List ChatMessage
  | [], _ => []
  | [m], f => [f m]
  | m :: m2 :: rest, f => m :: setLastMsg (m2 :: rest) f

/-- The `for await (const chunk of result)` loop: check the abort flag at each
chunk boundary (`break` once observed set), append non-empty text increments to
the growing record, collect function-call requests.  Returns the advanced
boundary counter, accumulated text, collected requests and updated messages. -/
def consumeChunks (abort : Nat → Bool) :
    Nat → List Chunk → String → List FunctionCall → List ChatMessage →
      Nat × String × List FunctionCall × List ChatMessage
  | k, [], fullText, toolCalls, msgs => (k, fullText, toolCalls, msgs)
  | k, c :: rest, fullText, toolCalls, msgs =>
    if abort k then (k, fullText, toolCalls, msgs)
    else
      let step :=
        match c.text with
        | some t =>
          if t = "" then (fullText, msgs)
          else (fullText ++ t, setLastMsg msgs (fun m => { m with text := fullText ++ t }))
        | none => (fullText, msgs)
      consumeChunks abort (k + 1) rest step.1 (toolCalls ++ c.functionCalls.getD []) step.2

/-- Execute the collected tool calls strictly in order, collecting structured
responses. -/
def execAll (readFile : String → Option String) :
    AgentState → List FunctionCall → AgentState × List ToolResponse
  | st, [] => (st, [])
  | st, c :: rest =>
    let r1 := executeTool readFile st c
    let r2 := execAll readFile r1.1 rest
    (r2.1, r1.2 :: r2.2)

/-- Observable outcome of a `sendMessage` run: final state, final chunk-boundary
counter, the `executeTool` invocations in execution order, the number of
continuation-turn submissions, and whether the run needed more streams than
supplied (never the case under the theorems' hypotheses). -/
structure TurnResult where
  state : AgentState
  counter : Nat
  trace : List FunctionCall
  continuations : Nat
  starved : Bool

/-- `processTurn` (store.tsx): stream one turn; with no collected tool calls the
recursion ends, otherwise record them on the model-turn record, execute them in
order and submit exactly one continuation turn (which consumes the next
stream). -/
def processTurn (readFile : String → Option String) (abort : Nat → Bool) :
    List (List Chunk) → Nat → AgentState → TurnResult
  | [], k, st => { state := st, counter := k, trace := [], continuations := 0, starved := true }
  | chunks :: rest, k, st =>
    let msgs0 := ensurePlaceholder st.messages
    let res := consumeChunks abort k chunks "" [] msgs0
    let k1 := res.1
    let toolCalls := res.2.2.1
    let st1 := { st with messages := res.2.2.2 }
    if toolCalls.isEmpty then
      { state := st1, counter := k1, trace := [], continuations := 0, starved := false }
    else
      let st2 := { st1 with
        messages := setLastMsg st1.messages (fun m => { m with toolCalls := some toolCalls }) }
      let r3 := execAll readFile st2 toolCalls
      let r := processTurn readFile abort rest k1 r3.1
      { state := r.state, counter := r.counter, trace := toolCalls ++ r.trace,
        continuations := r.continuations + 1, starved := r.starved }

/-- `sendMessage` (store.tsx): append the user record, go to `Thinking`, reset
the abort flag (the `abort` observation function starts at boundary 0), run the
recursive turn protocol, and in the `finally` return the activity to `Idle`. -/
def sendMessage (readFile : String → Option String) (streams : List (List Chunk))
    (abort : Nat → Bool) (text : String) (st : AgentState) : TurnResult :=
  let st1 := { st with messages := st.messages ++ [userMsg text], activity := .thinking }
  let r := processTurn readFile abort streams 0 st1
  { r with state := { r.state with activity := .idle } }

/-- All function calls a stream yields, in arrival order. -/
def collectCalls (chunks : List Chunk) : List FunctionCall :=
  chunks.flatMap fun c => c.functionCalls.getD []

/-- The text a stream accumulates into the model-turn record. -/
def collectText : List Chunk → String
  | [] => ""
  | c :: rest => (match c.text with | some t => t | none => "") ++ collectText rest

/-- Display names of a node's children, in order. -/
def childNames (n : FileNode) : List String := n.childrenD.map FileNode.name

/-- Kinds of a node's children, in order. -/
def childKinds (n : FileNode) : List NodeKind := n.childrenD.map FileNode.kind

/-! ## Concrete runs used by the closed example theorems -/

/-- An all-zero initial UI state. -/
def uiZero : ScanUI :=
  { status := .idle, progress := 0, scannedFiles := 0, totalFiles := 0,
    contextContent := "", stats := ⟨0, 0, 0⟩, hasBundle := false }

/-- A completed run over one file named `a` with content `"a"`: its single
record is 46 characters long. -/
def tokenDemoRun : ScanUI :=
  scanProject (FileNode.mk "P" .directory "P" (some [FileNode.mk "a" .file "P/a" (some [])]))
    false (fun _ => some "a") (fun _ => false) uiZero

/-- A completed run whose only candidate reads back empty and is therefore
skipped by the binary/empty heuristic. -/
def emptyContentRun : ScanUI :=
  scanProject
    (FileNode.mk "P" .directory "P" (some [FileNode.mk "a.txt" .file "P/a.txt" (some [])]))
    false (fun _ => some "") (fun _ => false) uiZero

/-- An empty agent session state. -/
def agentZero : AgentState :=
  { rootNode := none, selectedPaths := [], loadedFiles := [], userInstruction := "",
    messages := [], activity := .idle }

/-- A concrete `update_instruction` request. -/
def updateCallX : FunctionCall := { name := "update_instruction", args := { text := some "x" } }

/-- A cancelled-mid-stream session: the first chunk carries the
`update_instruction` request, and the abort flag is observed set from the
second chunk boundary on — before any tool execution has started. -/
def cancelledTurnRun : TurnResult :=
  sendMessage (fun _ => none)
    [[{ functionCalls := some [updateCallX] }, { text := some "more" }], []]
    (fun k => decide (1 ≤ k)) "go" agentZero

/-- A one-file tree for the `read_file` examples. -/
def demoTreeR : FileNode :=
  FileNode.mk "r" .directory "r" (some [FileNode.mk "a" .file "r/a" none])

/-! # Theorems -/

/-! ### Comparator facts -/

theorem charListLt_irrefl : ∀ l, charListLt l l = false := by
  intro l
  induction l with
  | nil => rfl
  | cons c rest ih => simp [charListLt, ih]

theorem charListLt_trans : ∀ {a b c : List Char},
    charListLt a b = true → charListLt b c = true → charListLt a c = true := by
  intro a
  induction a with
  | nil =>
    intro b c hab hbc
    cases b with
    | nil => simp [charListLt] at hab
    | cons y ys =>
      cases c with
      | nil => simp [charListLt] at hbc
      | cons z zs => simp [charListLt]
  | cons x xs ih =>
    intro b c hab hbc
    cases b with
    | nil => simp [charListLt] at hab
    | cons y ys =>
      cases c with
      | nil => simp [charListLt] at hbc
      | cons z zs =>
        simp only [charListLt, Bool.or_eq_true, Bool.and_eq_true, decide_eq_true_eq] at hab hbc ⊢
        rcases hab with h1 | ⟨h1, h1'⟩ <;> rcases hbc with h2 | ⟨h2, h2'⟩
        · exact Or.inl (Nat.lt_trans h1 h2)
        · exact Or.inl (h2 ▸ h1)
        · exact Or.inl (h1 ▸ h2)
        · exact Or.inr ⟨h1.trans h2, ih h1' h2'⟩

theorem charListLt_eq_of_not : ∀ {a b : List Char},
    charListLt a b = false → charListLt b a = false → a = b := by
  intro a
  induction a with
  | nil =>
    intro b hab _
    cases b with
    | nil => rfl
    | cons y ys => simp [charListLt] at hab
  | cons x xs ih =>
    intro b hab hba
    cases b with
    | nil => simp [charListLt] at hba
    | cons y ys =>
      simp only [charListLt, Bool.or_eq_false_iff, Bool.and_eq_false_iff,
        decide_eq_false_iff_not, Nat.not_lt] at hab hba
      have hxy : x.toNat = y.toNat := Nat.le_antisymm hba.1 hab.1
      have hx : x = y := Char.eq_of_val_eq (UInt32.ext hxy)
      subst hx
      rcases hab.2 with h | h
      · exact absurd rfl h
      · rcases hba.2 with h' | h'
        · exact absurd rfl h'
        · exact congrArg (x :: ·) (ih h h')

/-- Characterization of the non-positive side of the modelled `localeCompare`:
it is the lexicographic product of the case-folded comparison and the raw
comparison. -/
theorem localeCompare_nonpos_iff (a b : String) :
    localeCompare a b ≤ 0 ↔
      charListLt (lowerChars a.data) (lowerChars b.data) = true ∨
        (lowerChars a.data = lowerChars b.data ∧
          (charListLt a.data b.data = true ∨ a.data = b.data)) := by
  unfold localeCompare
  split_ifs with h1 h2 h3 h4
  · simp [h1]
  · constructor
    · omega
    · rintro (h | ⟨he, _⟩)
      · exact absurd h (by simp [h1])
      · rw [he] at h2; rw [charListLt_irrefl] at h2; exact absurd h2 (by simp)
  · have he : lowerChars a.data = lowerChars b.data := charListLt_eq_of_not
      (by simpa using h1) (by simpa using h2)
    simp [h1, he, h3]
  · have he : lowerChars a.data = lowerChars b.data := charListLt_eq_of_not
      (by simpa using h1) (by simpa using h2)
    constructor
    · omega
    · rintro (h | ⟨_, h | h⟩)
      · exact absurd h (by simp [h1])
      · exact absurd h (by simp [h3])
      · rw [h] at h4; rw [charListLt_irrefl] at h4; exact absurd h4 (by simp)
  · have he : lowerChars a.data = lowerChars b.data := charListLt_eq_of_not
      (by simpa using h1) (by simpa using h2)
    have hd : a.data = b.data := charListLt_eq_of_not
      (by simpa using h3) (by simpa using h4)
    simp [he, hd]

theorem localeCompare_nonpos_total (a b : String) :
    localeCompare a b ≤ 0 ∨ localeCompare b a ≤ 0 := by
  rw [localeCompare_nonpos_iff, localeCompare_nonpos_iff]
  by_cases h1 : charListLt (lowerChars a.data) (lowerChars b.data) = true
  · exact Or.inl (Or.inl h1)
  · by_cases h2 : charListLt (lowerChars b.data) (lowerChars a.data) = true
    · exact Or.inr (Or.inl h2)
    · have he : lowerChars a.data = lowerChars b.data := charListLt_eq_of_not
        (by simpa using h1) (by simpa using h2)
      by_cases h3 : charListLt a.data b.data = true
      · exact Or.inl (Or.inr ⟨he, Or.inl h3⟩)
      · by_cases h4 : charListLt b.data a.data = true
        · exact Or.inr (Or.inr ⟨he.symm, Or.inl h4⟩)
        · exact Or.inl (Or.inr ⟨he, Or.inr (charListLt_eq_of_not
            (by simpa using h3) (by simpa using h4))⟩)

theorem localeCompare_nonpos_trans {a b c : String}
    (hab : localeCompare a b ≤ 0) (hbc : localeCompare b c ≤ 0) :
    localeCompare a c ≤ 0 := by
  rw [localeCompare_nonpos_iff] at hab hbc ⊢
  rcases hab with h1 | ⟨e1, r1⟩
  · rcases hbc with h2 | ⟨e2, _⟩
    · exact Or.inl (charListLt_trans h1 h2)
    · exact Or.inl (e2 ▸ h1)
  · rcases hbc with h2 | ⟨e2, r2⟩
    · exact Or.inl (e1 ▸ h2)
    · refine Or.inr ⟨e1.trans e2, ?_⟩
      rcases r1 with h1 | h1
      · rcases r2 with h2 | h2
        · exact Or.inl (charListLt_trans h1 h2)
        · exact Or.inl (h2 ▸ h1)
      · rcases r2 with h2 | h2
        · exact Or.inl (h1 ▸ h2)
        · exact Or.inr (h1.trans h2)

theorem nodeLeb_total : ∀ a b, (nodeLeb a b || nodeLeb b a) = true := by
  intro a b
  simp only [nodeLeb, nodeCmp, Bool.or_eq_true, decide_eq_true_eq]
  cases ha : a.kind <;> cases hb : b.kind <;>
      simp only [reduceCtorEq, reduceIte, if_true, if_false] <;>
    first
      | omega
      | exact localeCompare_nonpos_total a.name b.name

theorem nodeLeb_trans : ∀ a b c,
    nodeLeb a b = true → nodeLeb b c = true → nodeLeb a c = true := by
  intro a b c hab hbc
  simp only [nodeLeb, nodeCmp, decide_eq_true_eq] at hab hbc ⊢
  cases ha : a.kind <;> cases hb : b.kind <;> cases hc : c.kind <;>
      simp only [ha, hb, hc, reduceCtorEq, reduceIte, if_true, if_false] at hab hbc ⊢ <;>
    first
      | omega
      | exact localeCompare_nonpos_trans hab hbc

/-- The comparator is total (as needed by the stable-sort lemmas). -/
theorem nodeLe_isTotal : IsTotal FileNode nodeLe :=
  ⟨fun a b => by
    have h := nodeLeb_total a b
    rcases Bool.or_eq_true_iff.mp h with h' | h'
    · exact Or.inl h'
    · exact Or.inr h'⟩

/-- The comparator is transitive. -/
theorem nodeLe_isTrans : IsTrans FileNode nodeLe := ⟨nodeLeb_trans⟩

/-- The Bool comparator agrees with the claim-level sibling relation. -/
theorem nodeLe_iff_nodeRel (a b : FileNode) : nodeLe a b ↔ nodeRel a b := by
  simp only [nodeLe, nodeLeb, nodeCmp, nodeRel, decide_eq_true_eq]
  cases ha : a.kind <;> cases hb : b.kind <;> simp


/-! ## The ordering invariant -/

theorem sortNodes_sorted (l : List FileNode) : (sortNodes l).Pairwise nodeLe :=
  @List.sorted_insertionSort _ nodeLe _ nodeLe_isTotal nodeLe_isTrans l

theorem sortNodes_ordered (l : List FileNode) : childrenOrdered (sortNodes l) :=
  (sortNodes_sorted l).imp fun h => (nodeLe_iff_nodeRel _ _).mp h

theorem sortRecursive_name (n : FileNode) : (sortRecursive n).name = n.name := by
  cases n with
  | mk nm k p cs => cases cs <;> simp [sortRecursive, FileNode.name]

theorem sortRecursive_kind (n : FileNode) : (sortRecursive n).kind = n.kind := by
  cases n with
  | mk nm k p cs => cases cs <;> simp [sortRecursive, FileNode.kind]

theorem mem_allNodesList (m : FileNode) (l : List FileNode) :
    m ∈ allNodesList l ↔ ∃ c ∈ l, m ∈ allNodes c := by
  induction l with
  | nil => simp [allNodesList]
  | cons c cs ih =>
    simp only [allNodesList, List.mem_append, ih, List.mem_cons]
    constructor
    · rintro (h | ⟨x, hx, hm⟩)
      · exact ⟨c, Or.inl rfl, h⟩
      · exact ⟨x, Or.inr hx, hm⟩
    · rintro ⟨x, rfl | hx, hm⟩
      · exact Or.inl hm
      · exact Or.inr ⟨x, hx, hm⟩

theorem mem_allNodes (m : FileNode) (nm : String) (k : NodeKind) (p : String)
    (cs : Option (List FileNode)) :
    m ∈ allNodes (.mk nm k p cs) ↔
      m = .mk nm k p cs ∨ ∃ c ∈ cs.getD [], m ∈ allNodes c := by
  cases cs <;> simp [allNodes, mem_allNodesList]

theorem sortRecursiveList_eq_map (l : List FileNode) :
    sortRecursiveList l = l.map sortRecursive := by
  induction l with
  | nil => rfl
  | cons c cs ih => simp [sortRecursiveList, ih]

theorem nodeLe_sortRecursive_iff (a b : FileNode) :
    nodeLe (sortRecursive a) (sortRecursive b) ↔ nodeLe a b := by
  unfold nodeLe nodeLeb nodeCmp
  rw [sortRecursive_name, sortRecursive_name, sortRecursive_kind, sortRecursive_kind]

theorem orderedInsert_nodeLe_map (f : FileNode → FileNode)
    (hf : ∀ a b, nodeLe (f a) (f b) ↔ nodeLe a b) (a : FileNode) (l : List FileNode) :
    List.orderedInsert nodeLe (f a) (l.map f) = (List.orderedInsert nodeLe a l).map f := by
  induction l with
  | nil => simp [List.orderedInsert]
  | cons b bs ih =>
    simp only [List.map_cons, List.orderedInsert]
    by_cases h : nodeLe a b
    · rw [if_pos ((hf a b).mpr h), if_pos h]
      simp
    · rw [if_neg (fun hh => h ((hf a b).mp hh)), if_neg h]
      simp [ih]

theorem insertionSort_nodeLe_map (f : FileNode → FileNode)
    (hf : ∀ a b, nodeLe (f a) (f b) ↔ nodeLe a b) (l : List FileNode) :
    List.insertionSort nodeLe (l.map f) = (List.insertionSort nodeLe l).map f := by
  induction l with
  | nil => rfl
  | cons a as ih =>
    simp only [List.map_cons, List.insertionSort, ih]
    exact orderedInsert_nodeLe_map f hf a (List.insertionSort nodeLe as)

/-- The model's recurse-then-sort order agrees with the source's
sort-then-recurse order: the recursion preserves each child's sort key. -/
theorem sortNodes_sortRecursiveList (l : List FileNode) :
    sortNodes (sortRecursiveList l) = (sortNodes l).map sortRecursive := by
  rw [sortRecursiveList_eq_map]
  exact insertionSort_nodeLe_map sortRecursive nodeLe_sortRecursive_iff l

/-- Every node of a recursively sorted tree has ordered children. -/
theorem sortRecursive_ordered_fuel : ∀ (fuel : Nat) (n : FileNode), sizeOf n ≤ fuel →
    ∀ m ∈ allNodes (sortRecursive n), childrenOrdered m.childrenD := by
  intro fuel
  induction fuel with
  | zero =>
    intro n hn
    cases n with
    | mk nm k p cs => simp at hn
  | succ fuel ih =>
    intro n hn m hm
    cases n with
    | mk nm k p cs =>
      cases cs with
      | none =>
        rw [sortRecursive] at hm
        rw [mem_allNodes] at hm
        rcases hm with rfl | ⟨c, hc, _⟩
        · simp [FileNode.childrenD, FileNode.children, childrenOrdered]
        · simp at hc
      | some l =>
        rw [sortRecursive] at hm
        rw [mem_allNodes] at hm
        rcases hm with rfl | ⟨c', hc', hm⟩
        · show childrenOrdered (FileNode.childrenD _)
          simp only [FileNode.childrenD, FileNode.children, Option.getD_some]
          exact sortNodes_ordered _
        · simp only [Option.getD_some] at hc'
          have hc'' : c' ∈ sortRecursiveList l :=
            (List.perm_insertionSort nodeLe _).mem_iff.mp hc'
          rw [sortRecursiveList_eq_map] at hc''
          rcases List.mem_map.mp hc'' with ⟨c0, hc0, rfl⟩
          have hsz : sizeOf c0 ≤ fuel := by
            have h1 := List.sizeOf_lt_of_mem hc0
            simp at hn
            omega
          exact ih c0 hsz m hm

theorem sortRecursive_ordered (n : FileNode) :
    ∀ m ∈ allNodes (sortRecursive n), childrenOrdered m.childrenD :=
  sortRecursive_ordered_fuel (sizeOf n) n le_rfl

theorem build_ordered_fuel : ∀ (fuel : Nat),
    (∀ (e : RawEntry), sizeOf e ≤ fuel → ∀ (p : String) (n : FileNode),
        buildEntry p e = some n → ∀ m ∈ allNodes n, childrenOrdered m.childrenD) ∧
    (∀ (es : List RawEntry), sizeOf es ≤ fuel → ∀ (p : String) (n : FileNode),
        n ∈ buildList p es → ∀ m ∈ allNodes n, childrenOrdered m.childrenD) := by
  intro fuel
  induction fuel with
  | zero =>
    constructor
    · intro e he
      cases e <;> simp at he
    · intro es hes p n hn
      cases es with
      | nil => simp [buildList] at hn
      | cons e rest => simp at hes
  | succ fuel ih =>
    constructor
    · intro e he p n hb m hm
      cases e with
      | file nm =>
        rw [buildEntry] at hb
        by_cases hig : isSystemIgnored nm
        · rw [if_pos hig] at hb
          exact absurd hb (by simp)
        · rw [if_neg hig] at hb
          injection hb with hb
          subst hb
          rw [mem_allNodes] at hm
          rcases hm with rfl | ⟨c, hc, _⟩
          · simp [FileNode.childrenD, FileNode.children, childrenOrdered]
          · simp at hc
      | dir nm es =>
        rw [buildEntry] at hb
        by_cases hig : isSystemIgnored nm
        · rw [if_pos hig] at hb
          exact absurd hb (by simp)
        · rw [if_neg hig] at hb
          injection hb with hb
          subst hb
          rw [mem_allNodes] at hm
          rcases hm with rfl | ⟨c, hc, hmc⟩
          · show childrenOrdered (FileNode.childrenD _)
            simp only [FileNode.childrenD, FileNode.children, Option.getD_some]
            exact sortNodes_ordered _
          · simp only [Option.getD_some] at hc
            have hcb : c ∈ buildList (p ++ "/" ++ nm) es :=
              (List.perm_insertionSort nodeLe _).mem_iff.mp hc
            have hsz : sizeOf es ≤ fuel := by
              simp at he
              omega
            exact (ih.2 es hsz (p ++ "/" ++ nm) c hcb) m hmc
    · intro es hes p n hn m hm
      cases es with
      | nil => simp [buildList] at hn
      | cons e rest =>
        rw [buildList] at hn
        rcases List.mem_append.mp hn with h1 | h2
        · cases hbe : buildEntry p e with
          | some n' =>
            rw [hbe] at h1
            simp at h1
            subst h1
            have hsz : sizeOf e ≤ fuel := by
              simp at hes
              omega
            exact ih.1 e hsz p n hbe m hm
          | none =>
            rw [hbe] at h1
            simp at h1
        · have hsz : sizeOf rest ≤ fuel := by
            simp at hes
            omega
          exact ih.2 rest hsz p n h2 m hm

/-- Ordering invariant for the native traversal. -/
theorem openDirectory_ordered (rootName : String) (entries : List RawEntry) :
    ∀ m ∈ allNodes (openDirectory rootName entries), childrenOrdered m.childrenD := by
  intro m hm
  have hm' : m ∈ allNodes (FileNode.mk rootName .directory rootName
      (some (sortNodes (buildList rootName entries)))) := hm
  rw [mem_allNodes] at hm'
  rcases hm' with rfl | ⟨c, hc, hmc⟩
  · show childrenOrdered (FileNode.childrenD _)
    simp only [FileNode.childrenD, FileNode.children, Option.getD_some]
    exact sortNodes_ordered _
  · simp only [Option.getD_some] at hc
    have hcb : c ∈ buildList rootName entries :=
      (List.perm_insertionSort nodeLe _).mem_iff.mp hc
    exact (build_ordered_fuel (sizeOf entries)).2 entries le_rfl rootName c hcb m hmc

/-- Ordering invariant for the flat-list reconstruction. -/
theorem processFileList_ordered (paths : List String) (r : FileNode)
    (h : processFileList paths = some r) :
    ∀ m ∈ allNodes r, childrenOrdered m.childrenD := by
  cases paths with
  | nil => exact absurd h (by simp [processFileList])
  | cons p0 rest =>
    simp only [processFileList, Option.some.injEq] at h
    subst h
    exact sortRecursive_ordered _

/-- Ordering invariant for the remote reconstruction. -/
theorem loadGithubRepo_ordered (repo : String) (entries : List GithubTreeEntry) :
    ∀ m ∈ allNodes (loadGithubRepo repo entries), childrenOrdered m.childrenD := by
  intro m hm
  unfold loadGithubRepo at hm
  exact sortRecursive_ordered _ m hm

/-! ## Claim theorems -/

/-- C4: in every tree produced by any of the three construction algorithms
(native traversal, flat-list reconstruction, remote reconstruction), each
node's children sequence places every `Directory` node before every `File`
node and, inside one kind, orders the display names by the (modelled)
locale-aware comparison; and the flat-list scenario
`["Proj/src/app.ts", "Proj/src/utils/helpers.ts", "Proj/README.md"]` yields a
root named `Proj` with children `[src (directory), README.md (file)]` whose
`src` child has children ordered `[utils, app.ts]`. -/
theorem tree_ordering_invariant :
    (∀ (rootName : String) (entries : List RawEntry),
        ∀ m ∈ allNodes (openDirectory rootName entries), childrenOrdered m.childrenD)
  ∧ (∀ (paths : List String) (r : FileNode), processFileList paths = some r →
        ∀ m ∈ allNodes r, childrenOrdered m.childrenD)
  ∧ (∀ (repo : String) (entries : List GithubTreeEntry),
        ∀ m ∈ allNodes (loadGithubRepo repo entries), childrenOrdered m.childrenD)
  ∧ (processFileList ["Proj/src/app.ts", "Proj/src/utils/helpers.ts", "Proj/README.md"]).map
        FileNode.name = some "Proj"
  ∧ (processFileList ["Proj/src/app.ts", "Proj/src/utils/helpers.ts", "Proj/README.md"]).map
        childNames = some ["src", "README.md"]
  ∧ (processFileList ["Proj/src/app.ts", "Proj/src/utils/helpers.ts", "Proj/README.md"]).map
        childKinds = some [.directory, .file]
  ∧ ((processFileList ["Proj/src/app.ts", "Proj/src/utils/helpers.ts", "Proj/README.md"]).bind
        (fun r => r.childrenD.find? (fun c => c.name == "src"))).map childNames
      = some ["utils", "app.ts"] := by
  refine ⟨openDirectory_ordered, processFileList_ordered, loadGithubRepo_ordered,
    ?_, ?_, ?_, ?_⟩ <;> decide

/-- Witness for C4: the theorem applied to the concrete one-file flat list
`["P/a"]` and the root node of the resulting tree. -/
theorem tree_ordering_invariant_witness :
    childrenOrdered (FileNode.childrenD
      (FileNode.mk "P" .directory "P" (some [FileNode.mk "a" .file "P/a" none]))) :=
  tree_ordering_invariant.2.1 ["P/a"]
    (FileNode.mk "P" .directory "P" (some [FileNode.mk "a" .file "P/a" none])) rfl
    (FileNode.mk "P" .directory "P" (some [FileNode.mk "a" .file "P/a" none]))
    (List.mem_cons_self _ _)

/-- C5: the rule set parsed from an ignore-pattern file with the lines `*.log`
and `dist/` excludes `build/output.log` (suffix-wildcard) and
`dist/bundle.js` (directory-anchor) but not `src/dist-helper.ts`. -/
theorem gitignore_rule_scenario :
    isGitIgnored "build/output.log" (parseGitIgnore "*.log\ndist/") = true
  ∧ isGitIgnored "dist/bundle.js" (parseGitIgnore "*.log\ndist/") = true
  ∧ isGitIgnored "src/dist-helper.ts" (parseGitIgnore "*.log\ndist/") = false := by
  decide

/-- C10: flat-list reconstruction of an empty file list returns `null` (no
synthetic root), rather than erroring or producing an empty tree. -/
theorem processFileList_empty : processFileList ([] : List String) = none := rfl

/-! ## Bundling pipeline -/

/-- If the abort flag is observed set at any batch boundary the loop will
reach, the loop returns the pre-loop UI state with `status := idle` and the
progress counters reset (the accumulating `output`/`size`/`processed` locals
are discarded). -/
theorem scanLoop_cancel (readFile : String → Option String) (abort : Nat → Bool) :
    ∀ (chunks : List (List FileNode)) (batchIdx processed total : Nat) (output : String)
      (size : Nat) (ui : ScanUI),
      (∃ i, i < chunks.length ∧ abort (batchIdx + i) = true) →
      scanLoop readFile abort batchIdx chunks processed total output size ui =
        { status := .idle, progress := 0, scannedFiles := 0, totalFiles := ui.totalFiles,
          contextContent := ui.contextContent, stats := ui.stats, hasBundle := ui.hasBundle } := by
  intro chunks
  induction chunks with
  | nil =>
    rintro _ _ _ _ _ _ ⟨i, hi, _⟩
    exact absurd hi (by simp)
  | cons chunk rest ih =>
    rintro batchIdx processed total output size ui ⟨i, hi, habort⟩
    by_cases hab : abort batchIdx = true
    · rw [scanLoop, if_pos hab]
    · cases i with
      | zero => exact absurd habort hab
      | succ i' =>
        rw [scanLoop, if_neg hab]
        exact ih (batchIdx + 1) _ total _ _ _
          ⟨i', by simpa using Nat.lt_of_succ_lt_succ (by simpa using hi),
            by rw [show batchIdx + 1 + i' = batchIdx + (i' + 1) by omega]; exact habort⟩

/-- C6: a bundling run that observes the cancellation flag at a batch boundary
discards its partial output: the run ends with the empty artifact (never a
non-empty partial bundle), an `idle` status, progress and scanned-file
counters reset, no bundle flagged, and the stats untouched from before the
run. -/
theorem bundling_cancellation_discards_output
    (root : FileNode) (useGI : Bool) (readFile : String → Option String)
    (abort : Nat → Bool) (ui : ScanUI)
    (h : ∃ i, i < (chunks5 (scanCandidates root useGI readFile)).length ∧ abort i = true) :
    scanProject root useGI readFile abort ui =
      { status := .idle, progress := 0, scannedFiles := 0,
        totalFiles := (scanCandidates root useGI readFile).length,
        contextContent := "", stats := ui.stats, hasBundle := false } := by
  unfold scanProject
  exact scanLoop_cancel readFile abort _ 0 0 _ _ 0 _ (by simpa using h)

/-- Witness for C6: a one-file project cancelled at the first batch boundary. -/
theorem bundling_cancellation_discards_output_witness :
    scanProject (FileNode.mk "P" .directory "P" (some [FileNode.mk "a" .file "P/a" (some [])]))
        false (fun _ => some "a") (fun _ => true) uiZero =
      { status := .idle, progress := 0, scannedFiles := 0, totalFiles := 1,
        contextContent := "", stats := ⟨0, 0, 0⟩, hasBundle := false } :=
  bundling_cancellation_discards_output
    (FileNode.mk "P" .directory "P" (some [FileNode.mk "a" .file "P/a" (some [])]))
    false (fun _ => some "a") (fun _ => true) uiZero ⟨0, by decide, rfl⟩

/-- A loop run that finalizes (status `ready`) derives its token stat from its
size stat by rounding half up. -/
theorem scanLoop_ready_tokens (readFile : String → Option String) (abort : Nat → Bool) :
    ∀ (chunks : List (List FileNode)) (batchIdx processed total : Nat) (output : String)
      (size : Nat) (ui : ScanUI),
      (scanLoop readFile abort batchIdx chunks processed total output size ui).status = .ready →
      (scanLoop readFile abort batchIdx chunks processed total output size ui).stats.tokens
        = ((scanLoop readFile abort batchIdx chunks processed total output size ui).stats.size
            + 2) / 4 := by
  intro chunks
  induction chunks with
  | nil => intro _ _ _ _ _ _ _; rfl
  | cons chunk rest ih =>
    intro batchIdx processed total output size ui h
    by_cases hab : abort batchIdx = true
    · rw [scanLoop, if_pos hab] at h
      exact absurd h (by simp)
    · rw [scanLoop, if_neg hab] at h ⊢
      exact ih _ _ total _ _ _ h

/-- C7 (amended): for every completed bundling run the approximate token count
equals `byteSize * 0.25` rounded half **up** — `⌊(byteSize + 2) / 4⌋`, which is
`Math.round(byteSize * 0.25)` — not `⌊byteSize * 0.25⌋`. -/
theorem token_estimate_half_up (root : FileNode) (useGI : Bool)
    (readFile : String → Option String) (abort : Nat → Bool) (ui : ScanUI)
    (h : (scanProject root useGI readFile abort ui).status = .ready) :
    (scanProject root useGI readFile abort ui).stats.tokens
      = ((scanProject root useGI readFile abort ui).stats.size + 2) / 4 := by
  unfold scanProject at h ⊢
  exact scanLoop_ready_tokens readFile abort _ 0 0 _ _ 0 _ h

/-- Witness for the amended C7: the 46-character demo run, `12 = (46 + 2) / 4`. -/
theorem token_estimate_half_up_witness :
    tokenDemoRun.stats.tokens = (tokenDemoRun.stats.size + 2) / 4 :=
  token_estimate_half_up
    (FileNode.mk "P" .directory "P" (some [FileNode.mk "a" .file "P/a" (some [])]))
    false (fun _ => some "a") (fun _ => false) uiZero (by decide)

/-- Counterexample to C7 as stated: the demo run has `byteSize = 46` but
reports `12` tokens, while `⌊46 * 0.25⌋ = 11`. -/
theorem token_estimate_not_floor :
    tokenDemoRun.stats.size = 46
  ∧ tokenDemoRun.stats.tokens = 12
  ∧ tokenDemoRun.stats.tokens ≠ tokenDemoRun.stats.size / 4 := by
  decide

/-- C1 (the code, at the claim's failing input): a completed run whose single
candidate reads back empty emits no `<file>` record — the artifact is just the
wrapper — yet reports `fileCount = 1`, because `count: processed` counts
candidates; this contradicts both the claim and the source's own comment
`Actual count of included files (excluding binaries/errors)`. -/
theorem filecount_counts_candidates :
    emptyContentRun.status = .ready
  ∧ emptyContentRun.stats.count = 1
  ∧ emptyContentRun.contextContent = "<project name=\"P\">\n</project>" := by
  decide

/-! ## Agent orchestration -/

theorem setLastMsg_append (base : List ChatMessage) (m : ChatMessage)
    (f : ChatMessage → ChatMessage) :
    setLastMsg (base ++ [m]) f = base ++ [f m] := by
  induction base with
  | nil => rfl
  | cons b bs ih =>
    cases bs with
    | nil => rfl
    | cons b2 bs2 =>
      show b :: setLastMsg ((b2 :: bs2) ++ [m]) f = b :: ((b2 :: bs2) ++ [f m])
      rw [ih]

theorem ensurePlaceholder_concat_user (xs : List ChatMessage) (t : String) :
    ensurePlaceholder (xs ++ [userMsg t]) =
      (xs ++ [userMsg t]) ++ [{ role := .model, text := "" }] := by
  simp [ensurePlaceholder, List.getLast?_concat, userMsg]

theorem consumeChunks_no_abort :
    ∀ (chunks : List Chunk) (k : Nat) (ft : String) (tc : List FunctionCall)
      (base : List ChatMessage) (m : ChatMessage), m.text = ft →
      consumeChunks (fun _ => false) k chunks ft tc (base ++ [m]) =
        (k + chunks.length, ft ++ collectText chunks, tc ++ collectCalls chunks,
          base ++ [{ m with text := ft ++ collectText chunks }]) := by
  intro chunks
  induction chunks with
  | nil =>
    intro k ft tc base m hm
    subst hm
    cases m with
    | mk r t e tcs =>
      simp [consumeChunks, collectText, collectCalls, String.append_empty]
  | cons c rest ih =>
    intro k ft tc base m hm
    cases c with
    | mk ctext cfc =>
      cases ctext with
      | none =>
        rw [consumeChunks, if_neg (by simp)]
        show consumeChunks _ (k + 1) rest ft (tc ++ cfc.getD []) (base ++ [m]) = _
        rw [ih (k + 1) ft (tc ++ cfc.getD []) base m hm]
        simp [collectText, collectCalls, List.append_assoc]
        omega
      | some t =>
        by_cases ht : t = ""
        · subst ht
          rw [consumeChunks, if_neg (by simp)]
          show consumeChunks _ (k + 1) rest ft (tc ++ cfc.getD []) (base ++ [m]) = _
          rw [ih (k + 1) ft (tc ++ cfc.getD []) base m hm]
          simp [collectText, collectCalls, List.append_assoc]
          omega
        · rw [consumeChunks, if_neg (by simp)]
          simp only [if_neg ht]
          show consumeChunks _ (k + 1) rest (ft ++ t) (tc ++ cfc.getD [])
              (setLastMsg (base ++ [m]) fun m' => { m' with text := ft ++ t }) = _
          rw [setLastMsg_append]
          rw [ih (k + 1) (ft ++ t) (tc ++ cfc.getD []) base
            { m with text := ft ++ t } rfl]
          simp [ht, collectText, collectCalls, List.append_assoc, String.append_assoc]
          omega

theorem consumeChunks_no_abort_calls :
    ∀ (chunks : List Chunk) (k : Nat) (ft : String) (tc : List FunctionCall)
      (msgs : List ChatMessage),
      (consumeChunks (fun _ => false) k chunks ft tc msgs).2.2.1 = tc ++ collectCalls chunks := by
  intro chunks
  induction chunks with
  | nil => intro k ft tc msgs; simp [consumeChunks, collectCalls]
  | cons c rest ih =>
    intro k ft tc msgs
    rw [consumeChunks, if_neg (by simp)]
    show (consumeChunks _ (k + 1) rest _ (tc ++ c.functionCalls.getD []) _).2.2.1 = _
    rw [ih]
    simp [collectCalls, List.append_assoc]

theorem processTurn_single_no_tools (readFile : String → Option String)
    (chunks2 : List Chunk) (h : collectCalls chunks2 = []) :
    ∀ (k : Nat) (st : AgentState),
      (processTurn readFile (fun _ => false) [chunks2] k st).trace = []
    ∧ (processTurn readFile (fun _ => false) [chunks2] k st).continuations = 0
    ∧ (processTurn readFile (fun _ => false) [chunks2] k st).starved = false := by
  intro k st
  have hc := consumeChunks_no_abort_calls chunks2 k "" [] (ensurePlaceholder st.messages)
  rw [List.nil_append, h] at hc
  simp only [processTurn, hc, List.isEmpty_nil, if_true]
  exact ⟨trivial, trivial, trivial⟩

/-- C3: a turn whose stream yields zero tool-invocation requests appends
exactly one model-turn record (holding the accumulated text) and returns the
machine to `Idle` with no tool executed and no continuation; a turn whose
stream yields the requests `collectCalls chunks ≠ []` executes exactly those
requests, in arrival order, and submits exactly one continuation turn, after
which (its stream yielding no further requests) the session ends at `Idle`. -/
theorem agent_turn_protocol :
    (∀ (readFile : String → Option String) (text : String) (st : AgentState)
        (chunks : List Chunk), collectCalls chunks = [] →
        sendMessage readFile [chunks] (fun _ => false) text st =
          { state := { st with
              messages := st.messages ++
                [userMsg text, { role := .model, text := collectText chunks }],
              activity := .idle },
            counter := chunks.length, trace := [], continuations := 0, starved := false })
  ∧ (∀ (readFile : String → Option String) (text : String) (st : AgentState)
        (chunks chunks2 : List Chunk), collectCalls chunks ≠ [] → collectCalls chunks2 = [] →
        (sendMessage readFile [chunks, chunks2] (fun _ => false) text st).trace
            = collectCalls chunks
        ∧ (sendMessage readFile [chunks, chunks2] (fun _ => false) text st).continuations = 1
        ∧ (sendMessage readFile [chunks, chunks2] (fun _ => false) text st).state.activity
            = .idle
        ∧ (sendMessage readFile [chunks, chunks2] (fun _ => false) text st).starved = false) := by
  constructor
  · intro readFile text st chunks h
    show ({ (processTurn readFile (fun _ => false) [chunks] 0
        { st with messages := st.messages ++ [userMsg text], activity := .thinking }) with
          state := _ } : TurnResult) = _
    simp only [processTurn, ensurePlaceholder_concat_user,
      consumeChunks_no_abort chunks 0 "" [] (st.messages ++ [userMsg text])
        { role := .model, text := "" } rfl,
      h]
    simp [List.append_assoc]
  · intro readFile text st chunks chunks2 h1 h2
    have hc := consumeChunks_no_abort_calls chunks 0 "" []
      (ensurePlaceholder (st.messages ++ [userMsg text]))
    rw [List.nil_append] at hc
    have hne : (collectCalls chunks).isEmpty = false := by
      cases hx : collectCalls chunks with
      | nil => exact absurd hx h1
      | cons a tl => rfl
    unfold sendMessage
    simp only [processTurn, consumeChunks_no_abort_calls, List.nil_append, h2, hne,
      Bool.false_eq_true, if_false, List.isEmpty_nil, if_true, List.append_nil]
    exact ⟨trivial, trivial, trivial, trivial⟩

/-- Witness for C3: part 1 at a one-chunk text stream, part 2 at a stream
carrying one tool request followed by an empty continuation stream. -/
theorem agent_turn_protocol_witness :
    sendMessage (fun _ => none) [[{ text := some "hi" }]] (fun _ => false) "go" agentZero =
      { state := { agentZero with
          messages := [userMsg "go", { role := .model, text := "hi" }],
          activity := .idle },
        counter := 1, trace := [], continuations := 0, starved := false }
  ∧ (sendMessage (fun _ => none) [[{ functionCalls := some [updateCallX] }], []]
      (fun _ => false) "go" agentZero).trace = [updateCallX] := by
  constructor
  · have h := agent_turn_protocol.1 (fun _ => none) "go" agentZero [{ text := some "hi" }] rfl
    simpa using h
  · exact (agent_turn_protocol.2 (fun _ => none) "go" agentZero
      [{ functionCalls := some [updateCallX] }] [] (by decide) rfl).1

/-- C2 counterexample: with the abort flag observed set at the second chunk
boundary — before any tool execution had started — the collected
`update_instruction` request is still executed (the trace is non-empty and the
draft instruction mutates) and one continuation turn is still submitted. -/
theorem cancelled_turn_still_executes :
    cancelledTurnRun.trace = [updateCallX]
  ∧ cancelledTurnRun.state.userInstruction = "x"
  ∧ cancelledTurnRun.continuations = 1
  ∧ cancelledTurnRun.state.activity = .idle := by
  decide

/-- C2 (amended): once the abort flag is observed set at a streamed chunk
boundary, the remainder of that stream contributes no further text or
tool-request accumulation, and every run ends with the state machine at
`Idle`; however (see the counterexample), tool requests accumulated before the
abort are still executed and a continuation turn is still submitted. -/
theorem cancellation_stops_stream :
    (∀ (readFile : String → Option String) (streams : List (List Chunk))
        (abort : Nat → Bool) (text : String) (st : AgentState),
        (sendMessage readFile streams abort text st).state.activity = .idle)
  ∧ (∀ (abort : Nat → Bool) (k : Nat) (chunks : List Chunk) (fullText : String)
        (toolCalls : List FunctionCall) (msgs : List ChatMessage), abort k = true →
        consumeChunks abort k chunks fullText toolCalls msgs
          = (k, fullText, toolCalls, msgs)) := by
  constructor
  · intro readFile streams abort text st
    rfl
  · intro abort k chunks fullText toolCalls msgs h
    cases chunks with
    | nil => rfl
    | cons c rest => rw [consumeChunks, if_pos h]

/-- Witness for the amended C2. -/
theorem cancellation_stops_stream_witness :
    (sendMessage (fun _ => none) [] (fun _ => true) "hi" agentZero).state.activity = .idle
  ∧ consumeChunks (fun _ => true) 0 [{ text := some "t" }] "" [] [] = (0, "", [], []) :=
  ⟨cancellation_stops_stream.1 (fun _ => none) [] (fun _ => true) "hi" agentZero,
   cancellation_stops_stream.2 (fun _ => true) 0 [{ text := some "t" }] "" [] [] rfl⟩

/-- C8: `read_file` with a path that exactly matches a node in the current tree
returns the node's content truncated to the fixed 10000-character bound (when
the content read succeeds), and with a path matching no node it returns the
structured `File not found` result rather than raising. -/
theorem read_file_tool (readFile : String → Option String) (st : AgentState) (root : FileNode)
    (p : String) (h : st.rootNode = some root) :
    (∀ node content, findNodeByPath root p = some node → readFile node.path = some content →
        (executeTool readFile st ⟨"read_file", { path := some p }⟩).2
          = ⟨"read_file", .content (jsTake content 10000)⟩)
  ∧ (findNodeByPath root p = none →
        (executeTool readFile st ⟨"read_file", { path := some p }⟩).2
          = ⟨"read_file", .error "File not found"⟩) := by
  constructor
  · intro node content hfind hread
    simp [executeTool, h, hfind, hread]
  · intro hfind
    simp [executeTool, h, hfind]

/-- Witness for C8: a hit and a miss on a concrete one-file tree. -/
theorem read_file_tool_witness :
    (executeTool (fun _ => some "hello") { agentZero with rootNode := some demoTreeR }
        ⟨"read_file", { path := some "r/a" }⟩).2
      = ⟨"read_file", .content "hello"⟩
  ∧ (executeTool (fun _ => some "hello") { agentZero with rootNode := some demoTreeR }
        ⟨"read_file", { path := some "r/zzz" }⟩).2
      = ⟨"read_file", .error "File not found"⟩ :=
  ⟨(read_file_tool (fun _ => some "hello") { agentZero with rootNode := some demoTreeR }
      demoTreeR "r/a" rfl).1 (FileNode.mk "a" .file "r/a" none) "hello" rfl rfl,
   (read_file_tool (fun _ => some "hello") { agentZero with rootNode := some demoTreeR }
      demoTreeR "r/zzz" rfl).2 rfl⟩

theorem mem_foldl_jsSetAdd :
    ∀ (ps : List String) (s : List String) (x : String),
      x ∈ ps.foldl jsSetAdd s ↔ x ∈ s ∨ x ∈ ps := by
  intro ps
  induction ps with
  | nil => simp
  | cons p rest ih =>
    intro s x
    rw [List.foldl_cons, ih]
    unfold jsSetAdd
    by_cases hp : p ∈ s
    · rw [if_pos hp]
      constructor
      · rintro (h | h)
        · exact Or.inl h
        · exact Or.inr (List.mem_cons_of_mem p h)
      · rintro (h | h)
        · exact Or.inl h
        · rcases List.mem_cons.mp h with rfl | h'
          · exact Or.inl hp
          · exact Or.inr h'
    · rw [if_neg hp]
      simp only [List.mem_append, List.mem_singleton, List.mem_cons]
      tauto

theorem foldl_jsSetAdd_of_subset :
    ∀ (ps : List String) (s : List String), (∀ p ∈ ps, p ∈ s) → ps.foldl jsSetAdd s = s := by
  intro ps
  induction ps with
  | nil => intro s _; rfl
  | cons p rest ih =>
    intro s h
    rw [List.foldl_cons]
    unfold jsSetAdd
    rw [if_pos (h p (List.mem_cons_self p rest))]
    exact ih s fun q hq => h q (List.mem_cons_of_mem p hq)

theorem mem_foldl_jsSetDelete :
    ∀ (ps : List String) (s : List String) (x : String),
      x ∈ ps.foldl jsSetDelete s ↔ x ∈ s ∧ x ∉ ps := by
  intro ps
  induction ps with
  | nil => simp
  | cons p rest ih =>
    intro s x
    rw [List.foldl_cons, ih]
    unfold jsSetDelete
    simp only [List.mem_filter, decide_eq_true_eq, List.mem_cons]
    tauto

theorem foldl_jsSetDelete_of_disjoint :
    ∀ (ps : List String) (s : List String), (∀ p ∈ ps, p ∉ s) → ps.foldl jsSetDelete s = s := by
  intro ps
  induction ps with
  | nil => intro s _; rfl
  | cons p rest ih =>
    intro s h
    rw [List.foldl_cons]
    unfold jsSetDelete
    rw [List.filter_eq_self.mpr]
    · exact ih s fun q hq => h q (List.mem_cons_of_mem p hq)
    · intro q hq
      simp only [decide_eq_true_eq]
      intro hqp
      exact h p (List.mem_cons_self p rest) (hqp ▸ hq)

/-- `select_files` ends in the fold of `Set.add` over the given paths,
reporting the new size; the final activity is back to `thinking`. -/
theorem executeTool_select (readFile : String → Option String) (st : AgentState)
    (ps : List String) :
    executeTool readFile st ⟨"select_files", { paths := some ps }⟩ =
      ({ st with
          selectedPaths := ps.foldl jsSetAdd st.selectedPaths,
          activity := .thinking },
        ⟨"select_files", .count (ps.foldl jsSetAdd st.selectedPaths).length⟩) := rfl

/-- `deselect_files` ends in the fold of `Set.delete`, with the untouched
initial `{status: 'ok'}` result. -/
theorem executeTool_deselect (readFile : String → Option String) (st : AgentState)
    (ps : List String) :
    executeTool readFile st ⟨"deselect_files", { paths := some ps }⟩ =
      ({ st with
          selectedPaths := ps.foldl jsSetDelete st.selectedPaths,
          activity := .thinking },
        ⟨"deselect_files", .ok⟩) := rfl

/-- C9: `select_files` sets the selection to the union of the current
selection and the given paths and `deselect_files` to the set difference;
neither errors on already-present or absent paths (`select_files` reports a
count, `deselect_files` reports `ok`), and repeating either call with the same
paths leaves the selection exactly as after the first call. -/
theorem select_deselect_semantics :
    ∀ (readFile : String → Option String) (st : AgentState) (ps : List String),
      (∀ x, x ∈ (executeTool readFile st ⟨"select_files", { paths := some ps }⟩).1.selectedPaths
          ↔ x ∈ st.selectedPaths ∨ x ∈ ps)
    ∧ (∃ n, (executeTool readFile st ⟨"select_files", { paths := some ps }⟩).2.response
          = .count n)
    ∧ (executeTool readFile
          (executeTool readFile st ⟨"select_files", { paths := some ps }⟩).1
          ⟨"select_files", { paths := some ps }⟩).1.selectedPaths
        = (executeTool readFile st ⟨"select_files", { paths := some ps }⟩).1.selectedPaths
    ∧ (∀ x, x ∈ (executeTool readFile st
            ⟨"deselect_files", { paths := some ps }⟩).1.selectedPaths
          ↔ x ∈ st.selectedPaths ∧ x ∉ ps)
    ∧ (executeTool readFile st ⟨"deselect_files", { paths := some ps }⟩).2.response = .ok
    ∧ (executeTool readFile
          (executeTool readFile st ⟨"deselect_files", { paths := some ps }⟩).1
          ⟨"deselect_files", { paths := some ps }⟩).1.selectedPaths
        = (executeTool readFile st ⟨"deselect_files", { paths := some ps }⟩).1.selectedPaths := by
  intro readFile st ps
  refine ⟨?_, ?_, ?_, ?_, ?_, ?_⟩
  · intro x
    rw [executeTool_select]
    exact mem_foldl_jsSetAdd ps st.selectedPaths x
  · exact ⟨(ps.foldl jsSetAdd st.selectedPaths).length, by rw [executeTool_select]⟩
  · rw [executeTool_select, executeTool_select]
    exact foldl_jsSetAdd_of_subset ps _ fun p hp =>
      (mem_foldl_jsSetAdd ps st.selectedPaths p).mpr (Or.inr hp)
  · intro x
    rw [executeTool_deselect]
    exact mem_foldl_jsSetDelete ps st.selectedPaths x
  · rw [executeTool_deselect]
  · rw [executeTool_deselect, executeTool_deselect]
    exact foldl_jsSetDelete_of_disjoint ps _ fun p hp hmem =>
      ((mem_foldl_jsSetDelete ps st.selectedPaths p).mp hmem).2 hp

end VibeBuddy
